import Mathlib

/-!
Verification of the diffraction-capture measurement core.

This file embeds the measurement algorithms of the repository in Lean:

* `find_fringe_spacing` from `diffraction_capture/assets/python/fringe_eval.py`
  (peak-based fringe-spacing estimation over a 1-D intensity profile);
* `_estimate_slit_width` from `backend/app.py` (longest bright run in a
  column-mean profile);
* `_estimate_slit_width` from `diffraction_capture/backend/app.py`
  (the variant that raises `ValueError` on failure);
* `estimate_fringe_spacing_px`, `mm_per_px_from_calibration` and the
  slit-width derivation from `measure_fringes.py`.

Numeric conventions: the Python code computes in IEEE floating point; the
embedding uses exact arithmetic, with `ℚ` for the executable estimator
pipelines and `ℝ`/`ℂ` where square roots or the Fourier transform appear.
`numpy` reductions over an empty array (which raise at runtime) are modelled
by explicit base values, noted at each definition.
-/

namespace DiffractionCapture

section

/- Batteries marks the arithmetic of `ℚ` `@[irreducible]`; restore the
default reducibility locally so that concrete runs of the estimators can be
checked by `decide`. -/
set_option allowUnsafeReducibility true
attribute [local semireducible] Rat.mul Rat.add Rat.sub Rat.div Rat.inv
set_option maxRecDepth 100000

/-- Minimum of a list of rationals (`np.min`).  `numpy` raises on an empty
array; the model returns `0` there, and every statement that depends on the
minimum is only used with nonempty profiles. -/
def listMin : List ℚ → ℚ
  | [] => 0
  | [x] => x
  | x :: y :: r => min x (listMin (y :: r))

/-- Maximum of a list of rationals (`np.max`), with the same empty-list
convention as `listMin`. -/
def listMax : List ℚ → ℚ
  | [] => 0
  | [x] => x
  | x :: y :: r => max x (listMax (y :: r))

/-- Arithmetic mean of a list of rationals (`np.mean`); `0` on the empty
list (division by zero in `ℚ`). -/
def listMean (l : List ℚ) : ℚ := l.sum / l.length

/-- Population variance (`np.var`, i.e. the square of `np.std`): mean of the
squared deviations from the mean.  `np.std l = Real.sqrt (popVariance l)`. -/
def popVariance (l : List ℚ) : ℚ := listMean (l.map (fun x => (x - listMean l) ^ 2))

/-! ### `fringe_eval.find_fringe_spacing` -/

/-- `threshold = max(0.0, min(1.0, peak_threshold))` in `find_fringe_spacing`. -/
def clampThreshold (t : ℚ) : ℚ := max 0 (min 1 t)

/-- Lines 38-41 of `fringe_eval.py`: shift the profile by its minimum and
divide by the maximum of the shifted profile only when that maximum is
positive (the code has no early return when it is not). -/
def normalizeProfile (p : List ℚ) : List ℚ :=
  let shifted := p.map (fun v => v - listMin p)
  let m := listMax shifted
  if 0 < m then shifted.map (fun v => v / m) else shifted

/-- The peak test at interior index `i` (line 47 of `fringe_eval.py`):
`profile[i] >= profile[i-1] and profile[i] >= profile[i+1] and profile[i] >= threshold`. -/
def isPeakAt (p : List ℚ) (t : ℚ) (i : ℕ) : Bool :=
  decide (p.getD (i - 1) 0 ≤ p.getD i 0) && decide (p.getD (i + 1) 0 ≤ p.getD i 0)
    && decide (t ≤ p.getD i 0)

/-- The de-duplication test (line 48): accept `i` when no peak has been
accepted yet or the most recent accepted peak is more than 2 columns away.
The accumulator is kept in reverse order, so its head is the last peak. -/
def gapOk (acc : List ℕ) (i : ℕ) : Bool :=
  match acc with
  | [] => true
  | j :: _ => decide (j + 2 < i)

/-- The peak-scan loop of `find_fringe_spacing` (lines 44-49), iterating over
the interior indices and accumulating accepted peaks in reverse. -/
def peaksLoop (p : List ℚ) (t : ℚ) : List ℕ → List ℕ → List ℕ
  | [], acc => acc.reverse
  | i :: rest, acc =>
      if isPeakAt p t i && gapOk acc i then peaksLoop p t rest (i :: acc)
      else peaksLoop p t rest acc

/-- All accepted peaks: the scan runs over `range(1, len(profile) - 1)`,
i.e. the interior indices `1, …, len - 2`. -/
def findPeaks (p : List ℚ) (t : ℚ) : List ℕ :=
  peaksLoop p t (List.range' 1 (p.length - 2)) []

/-- Line 51: consecutive peak-to-peak distances, keeping only those `> 1`. -/
def validSpacings : List ℕ → List ℕ
  | [] => []
  | [_] => []
  | a :: b :: r => if 1 < b - a then (b - a) :: validSpacings (b :: r)
                   else validSpacings (b :: r)

/-- The peak list computed by `find_fringe_spacing` on profile `p` with
peak threshold `t`: peaks of the normalized profile above the clamped
threshold. -/
def fringePeaks (p : List ℚ) (t : ℚ) : List ℕ :=
  findPeaks (normalizeProfile p) (clampThreshold t)

/-- The valid spacings of `find_fringe_spacing`, as rationals. -/
def fringeSpacings (p : List ℚ) (t : ℚ) : List ℚ :=
  (validSpacings (fringePeaks p t)).map (fun n => (n : ℚ))

/-- The acceptance test on line 57 of `fringe_eval.py`,
`avg <= 0 or (std / avg) > max_std_ratio`, written without the square root:
for `avg > 0` and `var = std²` one has `std / avg > r ↔ r < 0 ∨ r²·avg² < var`
(and for `avg ≤ 0` both sides reject), which is proved as
`spacingRejected_iff` below. -/
def spacingRejected (s : List ℚ) (r : ℚ) : Bool :=
  let avg := listMean s
  decide (avg ≤ 0) || decide (r < 0) || decide (r ^ 2 * avg ^ 2 < popVariance s)

/-- `find_fringe_spacing(gray, peak_threshold, max_std_ratio, min_peaks)`
from `fringe_eval.py`, taking the column-mean profile (computed on line 37
from the 2-D image by the profile extractor) as input.  Returns the optional
spacing and the peak list. -/
def find_fringe_spacing (p : List ℚ) (peakThreshold maxStdRatio : ℚ) (minPeaks : ℕ) :
    Option ℚ × List ℕ :=
  let peaks := fringePeaks p peakThreshold
  let spacings := fringeSpacings p peakThreshold
  if spacings.length < 2 ∨ peaks.length < minPeaks then (none, peaks)
  else if spacingRejected spacings maxStdRatio then (none, peaks)
  else (some (listMean spacings), peaks)

/-! ### `backend/app.py._estimate_slit_width` -/

/-- The boolean mask `profile >= max_val * threshold_ratio` (line 25 of
`backend/app.py`). -/
def thresholdMask (p : List ℚ) (r : ℚ) : List Bool :=
  p.map (fun v => decide (listMax p * r ≤ v))

/-- The run-length scan of `_estimate_slit_width` (lines 29-35): walk the
mask once keeping the current run of `true`s and the best run seen. -/
def scanRuns : List Bool → ℕ → ℕ → ℕ
  | [], _, best => best
  | true :: rest, cur, best => scanRuns rest (cur + 1) (max best (cur + 1))
  | false :: rest, _, best => scanRuns rest 0 best

/-- `_estimate_slit_width(gray, threshold_ratio)` from `backend/app.py`,
taking the column-mean profile as input.  The `gray.size == 0` guard is
modelled by the empty-profile case (a nonempty grayscale image yields a
nonempty profile, and an empty one returns `None`). -/
def estimate_slit_width (p : List ℚ) (r : ℚ) : Option ℚ :=
  if p = [] then none
  else if listMax p ≤ 0 then none
  else
    let mask := thresholdMask p r
    if mask.any (fun b => b) then
      let best := scanRuns mask 0 0
      if 0 < best then some (best : ℚ) else none
    else none

/-- `_estimate_slit_width(frame)` from `diffraction_capture/backend/app.py`,
taken from the smoothed normalized profile onward (lines 61-80; the
grayscale conversion, Gaussian blurs and min-max normalization that produce
`smooth_profile` are image-preprocessing collaborators).  This variant
signals its failures by raising `ValueError`, modelled as `Except.error`
with the exception messages. -/
def dc_estimate_slit_width (p : List ℚ) : Except String ℚ :=
  let maxValue := listMax p
  if maxValue ≤ 0 then .error "Image is too dark to locate a slit"
  else
    let above := p.map (fun v => decide (maxValue * (1 / 2) ≤ v))
    let best := scanRuns above 0 0
    if best = 0 then .error "No bright slit-like region detected"
    else .ok (best : ℚ)

/-! ### `measure_fringes.estimate_fringe_spacing_px` -/

/-- Mean-removed profile (line 215 of `measure_fringes.py`). -/
def centered (p : List ℚ) : List ℚ := p.map (fun v => v - listMean p)

/-- The lag-`k` autocorrelation of the mean-removed profile, in exact
arithmetic: `ac[lag] = Σ_i c[i] · c[i+lag]`.  The code computes this value
via an FFT (lines 219-221); `fftAutocorr_eq_bruteAutocorr` below proves the
transform pipeline equal to this sum.  `ac[0]` is zeroed as on line 222. -/
def acOf (p : List ℚ) (lag : ℕ) : ℚ :=
  if lag = 0 then 0
  else ((List.range (p.length - lag)).map
    (fun i => (centered p).getD i 0 * (centered p).getD (i + lag) 0)).sum

/-- `min_lag = max(5, int(len(profile) * 0.01))` (line 224). -/
def minLagOf (p : List ℚ) : ℕ := max 5 (p.length / 100)

/-- `max_lag = min(len(profile) - 1, int(len(profile) * 0.5))` (line 225). -/
def maxLagOf (p : List ℚ) : ℕ := min (p.length - 1) (p.length / 2)

/-- Index of the first occurrence of the maximum (`np.argmax`): `0` for the
empty list. -/
def argmaxList : List ℚ → ℕ
  | [] => 0
  | [_] => 0
  | x :: y :: r => if x < listMax (y :: r) then argmaxList (y :: r) + 1 else 0

/-- `estimate_fringe_spacing_px(image_bgr)` from `measure_fringes.py`, taken
from the edge-magnitude profile onward (line 211; the grayscale conversion,
blur and Canny edge detection producing the profile are image-preprocessing
collaborators).  `np.allclose(profile, 0)` is modelled as exact equality to
zero, the exact-arithmetic reading of "numerically all-zero". -/
def estimate_fringe_spacing_px (p : List ℚ) : Option ℚ :=
  if p.length < 50 ∨ listMax p ≤ 0 then none
  else if ∀ x ∈ centered p, x = 0 then none
  else if maxLagOf p ≤ minLagOf p + 2 then none
  else
    let seg := (List.range' (minLagOf p) (maxLagOf p - minLagOf p)).map (acOf p)
    let lag := argmaxList seg + minLagOf p
    if acOf p lag ≤ 0 then none else some (lag : ℚ)

/-! ### `measure_fringes.mm_per_px_from_calibration` and the physical units -/

/-- Squared Euclidean pixel distance between the two clicked points. -/
def distSq (p0 p1 : ℚ × ℚ) : ℚ := (p1.1 - p0.1) ^ 2 + (p1.2 - p0.2) ^ 2

/-- `mm_per_px_from_calibration` from `measure_fringes.py` (lines 169-191),
from the clicked points and the entered length onward (the image read and
the click UI are collaborators; `ask_float` returning `None` is the `none`
case).  `math.hypot` is the Euclidean distance `√(dx² + dy²)`.  The
`RuntimeError`s raised by the code are modelled as `Except.error` with the
exception messages. -/
noncomputable def mm_per_px_from_calibration (p0 p1 : ℚ × ℚ) (knownMm : Option ℚ) :
    Except String ℝ :=
  match knownMm with
  | none => .error "Invalid known length (mm)."
  | some k =>
      if k ≤ 0 then .error "Invalid known length (mm)."
      else
        let distPx : ℝ := Real.sqrt ((distSq p0 p1 : ℚ) : ℝ)
        if distPx ≤ 0 then .error "Invalid pixel distance (0)."
        else .ok ((k : ℝ) / distPx)

/-- `spacing_mm = spacing_px * mm_per_px` (line 335 of `measure_fringes.py`). -/
def toPhysical (pixelValue : ℝ) (scale : ℝ) : ℝ := pixelValue * scale

/-- The slit-width derivation of `measure_fringes.main` (lines 337-339):
`slit_width_mm` is assigned only when both optics inputs are present and
`spacing_mm > 0`, and is `(wavelength_nm * 1e-6) * slit_to_screen_mm /
spacing_mm`; otherwise it stays `None`. -/
def slit_width_mm (wavelengthNm slitToScreenMm : Option ℚ) (spacingMm : ℚ) : Option ℚ :=
  match wavelengthNm, slitToScreenMm with
  | some w, some d =>
      if 0 < spacingMm then some (w * (1 / 1000000) * d / spacingMm) else none
  | _, _ => none

/-- The mask contains a run of `n` consecutive `true` samples. -/
def HasRun (xs : List Bool) (n : ℕ) : Prop := List.replicate n true <:+: xs

/-- Reference recursion for the longest run: `runCarry xs cur` is the longest
run of `true`s in `replicate cur true ++ xs`. -/
def runCarry : List Bool → ℕ → ℕ
  | [], cur => cur
  | true :: r, cur => runCarry r (cur + 1)
  | false :: r, cur => max cur (runCarry r 0)

/-- A 50-sample edge profile with two spikes 25 columns apart: every lag in
the half-open search window has negative autocorrelation, while lag 25 — the
upper endpoint of the inclusive window stated in the claim — has positive
autocorrelation and attains the window maximum. -/
def exSpikeProfile : List ℚ := (List.range 50).map (fun i => if i = 0 ∨ i = 25 then 50 else 0)

/-- A 50-sample periodic edge profile with period 10, on which the search
succeeds with lag 10. -/
def exPeriodicProfile : List ℚ := (List.range 50).map (fun i => if i % 10 = 0 then 100 else 0)

/-! ### The Wiener-Khinchin autocorrelation pipeline (`np.fft.rfft`-based
autocorrelation of lines 219-221 of `measure_fringes.py`, in exact
arithmetic over `ℂ`) -/

/-- Discrete Fourier transform of the first `n` samples of `f`
(`np.fft.rfft` computes exactly these values at the nonnegative
frequencies; for a real signal the full spectrum is determined by them). -/
noncomputable def dftC (n : ℕ) (f : ℕ → ℂ) (k : ℕ) : ℂ :=
  ∑ j ∈ Finset.range n, f j * Complex.exp (-(2 * Real.pi * Complex.I) * j * k / n)

/-- Inverse discrete Fourier transform over `n` points (`np.fft.irfft`). -/
noncomputable def idftC (n : ℕ) (g : ℕ → ℂ) (m : ℕ) : ℂ :=
  (∑ k ∈ Finset.range n, g k * Complex.exp (2 * Real.pi * Complex.I * k * m / n)) / n

/-- `n = 2 ** ceil(log2(len(profile) * 2))` (line 219): the least power of
two that is at least double the profile length. -/
def padLen (l : ℕ) : ℕ := 2 ^ (Nat.clog 2 (2 * l))

/-- The zero-padded signal: profile samples inside the list, `0` beyond. -/
def signalOf (p : List ℝ) (j : ℕ) : ℂ := ((p.getD j 0 : ℝ) : ℂ)

/-- Lines 219-221 of `measure_fringes.py`: transform the zero-padded
profile, multiply by its own conjugate, inverse-transform, and read the
entry at `lag` (the code truncates to the first `len(profile)` entries; the
claim quantifies over exactly those lags). -/
noncomputable def fftAutocorr (p : List ℝ) (lag : ℕ) : ℂ :=
  idftC (padLen p.length)
    (fun k => dftC (padLen p.length) (signalOf p) k *
      (starRingEnd ℂ) (dftC (padLen p.length) (signalOf p) k)) lag

/-- The brute-force lag correlation `ac[lag] = Σ_i p[i] · p[i+lag]`. -/
def bruteAutocorr (p : List ℝ) (lag : ℕ) : ℝ :=
  ∑ i ∈ Finset.range (p.length - lag), p.getD i 0 * p.getD (i + lag) 0

/-! ### Basic lemmas about the list reductions -/

theorem listMax_mem : ∀ {l : List ℚ}, l ≠ [] → listMax l ∈ l
  | [], h => absurd rfl h
  | [x], _ => by simp [listMax]
  | x :: y :: r, _ => by
      rcases max_choice x (listMax (y :: r)) with h | h
      · simp [listMax, h]
      · have := listMax_mem (l := y :: r) (by simp)
        simp only [listMax, h]
        exact List.mem_cons_of_mem x this

theorem le_listMax : ∀ {l : List ℚ} {x : ℚ}, x ∈ l → x ≤ listMax l
  | [], _, h => absurd h (List.not_mem_nil _)
  | [y], x, h => by simp at h; simp [listMax, h]
  | y :: z :: r, x, h => by
      rcases List.mem_cons.mp h with rfl | h
      · exact le_max_left _ _
      · exact le_trans (le_listMax h) (le_max_right _ _)

theorem listMin_mem : ∀ {l : List ℚ}, l ≠ [] → listMin l ∈ l
  | [], h => absurd rfl h
  | [x], _ => by simp [listMin]
  | x :: y :: r, _ => by
      rcases min_choice x (listMin (y :: r)) with h | h
      · simp [listMin, h]
      · have := listMin_mem (l := y :: r) (by simp)
        simp only [listMin, h]
        exact List.mem_cons_of_mem x this

theorem listMin_le : ∀ {l : List ℚ} {x : ℚ}, x ∈ l → listMin l ≤ x
  | [], _, h => absurd h (List.not_mem_nil _)
  | [y], x, h => by simp at h; simp [listMin, h]
  | y :: z :: r, x, h => by
      rcases List.mem_cons.mp h with rfl | h
      · exact min_le_left _ _
      · exact le_trans (min_le_right _ _) (listMin_le h)

theorem listMax_eq_of_const {l : List ℚ} {v : ℚ} (hl : l ≠ []) (h : ∀ x ∈ l, x = v) :
    listMax l = v :=
  h _ (listMax_mem hl)

theorem listMin_eq_of_const {l : List ℚ} {v : ℚ} (hl : l ≠ []) (h : ∀ x ∈ l, x = v) :
    listMin l = v :=
  h _ (listMin_mem hl)

theorem listMean_eq_of_const {l : List ℚ} {v : ℚ} (hl : l ≠ []) (h : ∀ x ∈ l, x = v) :
    listMean l = v := by
  have hsum : l.sum = l.length • v := List.sum_eq_card_nsmul l v h
  have hlen : (l.length : ℚ) ≠ 0 := by
    simpa using List.length_pos.mpr hl |>.ne'
  rw [listMean, hsum, nsmul_eq_mul, mul_comm, mul_div_assoc, div_self hlen, mul_one]

theorem popVariance_nonneg (l : List ℚ) : 0 ≤ popVariance l := by
  have hsum : 0 ≤ (l.map (fun x => (x - listMean l) ^ 2)).sum :=
    List.sum_nonneg (by
      intro x hx
      obtain ⟨y, _, rfl⟩ := List.mem_map.mp hx
      positivity)
  have hlen : (0 : ℚ) ≤ ((l.map (fun x => (x - listMean l) ^ 2)).length : ℚ) := by positivity
  exact div_nonneg hsum hlen

theorem getD_eq_of_const {l : List ℚ} {v : ℚ} (h : ∀ x ∈ l, x = v) {i : ℕ}
    (hi : i < l.length) : l.getD i 0 = v := by
  rw [List.getD_eq_getElem l 0 hi]
  exact h _ (List.getElem_mem hi)

theorem getD_zero_of_const {l : List ℚ} (h : ∀ x ∈ l, x = 0) (i : ℕ) : l.getD i 0 = 0 := by
  rcases lt_or_le i l.length with hi | hi
  · exact getD_eq_of_const h hi
  · exact List.getD_eq_default l 0 hi

/-! ### Longest-run correctness for the band-width scan -/

theorem le_runCarry : ∀ (xs : List Bool) (cur : ℕ), cur ≤ runCarry xs cur
  | [], _ => le_refl _
  | true :: r, cur => le_trans (Nat.le_succ cur) (le_runCarry r (cur + 1))
  | false :: r, cur => le_max_left _ _

theorem scanRuns_eq_runCarry :
    ∀ (xs : List Bool) (cur best : ℕ), cur ≤ best →
      scanRuns xs cur best = max best (runCarry xs cur)
  | [], cur, best, h => by
      simp [scanRuns, runCarry, Nat.max_eq_left h]
  | true :: r, cur, best, h => by
      have ih := scanRuns_eq_runCarry r (cur + 1) (max best (cur + 1)) (le_max_right _ _)
      have hge : cur + 1 ≤ runCarry r (cur + 1) := le_runCarry _ _
      show scanRuns r (cur + 1) (max best (cur + 1)) = max best (runCarry r (cur + 1))
      rw [ih]
      omega
  | false :: r, cur, best, h => by
      have ih := scanRuns_eq_runCarry r 0 best (Nat.zero_le _)
      show scanRuns r 0 best = max best (max cur (runCarry r 0))
      rw [ih]
      omega

theorem hasRun_runCarry :
    ∀ (xs : List Bool) (cur : ℕ),
      HasRun (List.replicate cur true ++ xs) (runCarry xs cur)
  | [], cur => by
      simpa [HasRun, runCarry] using (List.suffix_refl (List.replicate cur true)).isInfix
  | true :: r, cur => by
      have ih := hasRun_runCarry r (cur + 1)
      rw [List.replicate_succ' cur true] at ih
      simpa [HasRun, runCarry] using ih
  | false :: r, cur => by
      rcases max_choice cur (runCarry r 0) with h | h
      · refine ⟨[], false :: r, ?_⟩
        simp [HasRun, runCarry, h]
      · have ih := hasRun_runCarry r 0
        simp only [List.replicate_zero, List.nil_append] at ih
        have hsuf : r <:+: List.replicate cur true ++ false :: r :=
          ((List.suffix_cons false r).trans (List.suffix_append _ _)).isInfix
        simpa [HasRun, runCarry, h] using ih.trans hsuf

theorem replicate_true_prefix_of_append :
    ∀ (l₁ : List Bool) {l₂ : List Bool} {n : ℕ},
      List.replicate n true <+: l₁ ++ false :: l₂ → List.replicate n true <+: l₁
  | [], l₂, 0, _ => List.nil_prefix
  | [], l₂, n + 1, h => by
      rw [List.replicate_succ] at h
      rcases List.cons_prefix_cons.mp h with ⟨h0, _⟩
      simp at h0
  | b :: l₁, l₂, 0, _ => List.nil_prefix
  | b :: l₁, l₂, n + 1, h => by
      rw [List.replicate_succ] at h
      rw [List.cons_append] at h
      rcases List.cons_prefix_cons.mp h with ⟨rfl, htail⟩
      have := replicate_true_prefix_of_append l₁ htail
      rw [List.replicate_succ]
      exact List.cons_prefix_cons.mpr ⟨rfl, this⟩

theorem replicate_true_infix_of_append :
    ∀ (l₁ : List Bool) {l₂ : List Bool} {n : ℕ},
      List.replicate n true <:+: l₁ ++ false :: l₂ →
        List.replicate n true <:+: l₁ ∨ List.replicate n true <:+: l₂
  | [], l₂, n, h => by
      rw [List.nil_append] at h
      rcases List.infix_cons_iff.mp h with h | h
      · cases n with
        | zero => exact Or.inl List.nil_infix
        | succ m =>
            rw [List.replicate_succ] at h
            rcases List.cons_prefix_cons.mp h with ⟨h0, _⟩
            simp at h0
      · exact Or.inr h
  | b :: l₁, l₂, n, h => by
      rw [List.cons_append] at h
      rcases List.infix_cons_iff.mp h with h | h
      · rw [← List.cons_append] at h
        exact Or.inl (replicate_true_prefix_of_append (b :: l₁) h).isInfix
      · rcases replicate_true_infix_of_append l₁ h with h | h
        · exact Or.inl (h.trans (List.suffix_cons b l₁).isInfix)
        · exact Or.inr h

theorem hasRun_le_runCarry :
    ∀ (xs : List Bool) (cur n : ℕ),
      HasRun (List.replicate cur true ++ xs) n → n ≤ runCarry xs cur
  | [], cur, n, h => by
      rw [List.append_nil] at h
      have := h.length_le
      simpa [runCarry] using this
  | true :: r, cur, n, h => by
      have h' : HasRun (List.replicate (cur + 1) true ++ r) n := by
        rw [List.replicate_succ' cur true, List.append_assoc]
        simpa using h
      exact hasRun_le_runCarry r (cur + 1) n h'
  | false :: r, cur, n, h => by
      rcases replicate_true_infix_of_append (List.replicate cur true) h with h | h
      · have := h.length_le
        simp only [List.length_replicate] at this
        exact le_trans this (le_max_left _ _)
      · have := hasRun_le_runCarry r 0 n (by simpa using h)
        exact le_trans this (le_max_right _ _)

theorem hasRun_of_runCarry (xs : List Bool) : HasRun xs (runCarry xs 0) := by
  simpa using hasRun_runCarry xs 0

theorem hasRun_le (xs : List Bool) {n : ℕ} (h : HasRun xs n) : n ≤ runCarry xs 0 :=
  hasRun_le_runCarry xs 0 n (by simpa using h)

theorem hasRun_one_of_mem {xs : List Bool} (h : true ∈ xs) : HasRun xs 1 := by
  obtain ⟨s, t, rfl⟩ := List.append_of_mem h
  exact ⟨s, t, by simp⟩

theorem true_mem_of_hasRun {xs : List Bool} {n : ℕ} (hn : 0 < n) (h : HasRun xs n) :
    true ∈ xs := by
  refine h.subset ?_
  cases n with
  | zero => exact absurd hn (by simp)
  | succ m => rw [List.replicate_succ]; exact List.mem_cons_self _ _

theorem thresholdMask_getD {p : List ℚ} {r : ℚ} {i : ℕ} (hi : i < p.length) :
    (thresholdMask p r).getD i false = decide (listMax p * r ≤ p.getD i 0) := by
  unfold thresholdMask
  rw [List.getD_eq_getElem _ _ (by simpa using hi), List.getD_eq_getElem _ _ hi]
  simp

theorem listMax_pos_ne_nil {p : List ℚ} (h : 0 < listMax p) : p ≠ [] := by
  intro hp
  rw [hp] at h
  exact absurd h (by simp [listMax])

theorem estimate_slit_width_of_max_nonpos (p : List ℚ) (r : ℚ) (h : listMax p ≤ 0) :
    estimate_slit_width p r = none := by
  by_cases hp : p = [] <;> simp [estimate_slit_width, hp, h]

theorem estimate_slit_width_spec (p : List ℚ) (r : ℚ) (hmax : 0 < listMax p) :
    (true ∉ thresholdMask p r → estimate_slit_width p r = none) ∧
    (true ∈ thresholdMask p r →
      estimate_slit_width p r = some ((runCarry (thresholdMask p r) 0 : ℕ) : ℚ)) := by
  have hne : p ≠ [] := listMax_pos_ne_nil hmax
  have hnot : ¬ listMax p ≤ 0 := not_le.mpr hmax
  have hany : (thresholdMask p r).any (fun b => b) = true ↔ true ∈ thresholdMask p r := by
    simp [List.any_eq_true]
  constructor
  · intro hmem
    have : (thresholdMask p r).any (fun b => b) = false := by
      rw [← Bool.not_eq_true, hany]; exact hmem
    simp [estimate_slit_width, hne, hnot, this]
  · intro hmem
    have hrun1 : 1 ≤ runCarry (thresholdMask p r) 0 :=
      hasRun_le _ (hasRun_one_of_mem hmem)
    have hscan : scanRuns (thresholdMask p r) 0 0 = runCarry (thresholdMask p r) 0 := by
      simpa using scanRuns_eq_runCarry (thresholdMask p r) 0 0 le_rfl
    have : (thresholdMask p r).any (fun b => b) = true := hany.mpr hmem
    simp only [estimate_slit_width, if_neg hne, if_neg hnot, this, if_pos, hscan]
    rw [if_pos (by omega)]

/-- `C3`: for every real-valued profile and threshold ratio,
`_estimate_slit_width` (from `backend/app.py`) returns `None` when the
profile maximum is not positive; otherwise it returns exactly the length of
the longest run of consecutive samples at or above `max · ratio`, and an
all-below-threshold mask (the longest-run length 0) is reported as `None`
rather than as width 0. -/
theorem claim_C3_band_width_run (p : List ℚ) (r : ℚ) :
    (listMax p ≤ 0 → estimate_slit_width p r = none) ∧
    (0 < listMax p →
      (∀ w : ℚ, estimate_slit_width p r = some w ↔
        ∃ n : ℕ, w = (n : ℚ) ∧ 0 < n ∧ HasRun (thresholdMask p r) n ∧
          ∀ m, HasRun (thresholdMask p r) m → m ≤ n) ∧
      (estimate_slit_width p r = none ↔ ∀ b ∈ thresholdMask p r, b = false)) := by
  refine ⟨estimate_slit_width_of_max_nonpos p r, fun hmax => ⟨fun w => ?_, ?_⟩⟩
  · constructor
    · intro hw
      by_cases hmem : true ∈ thresholdMask p r
      · have := (estimate_slit_width_spec p r hmax).2 hmem
        rw [this] at hw
        refine ⟨runCarry (thresholdMask p r) 0, (Option.some_injective _ hw).symm,
          hasRun_le _ (hasRun_one_of_mem hmem), hasRun_of_runCarry _, fun m hm => hasRun_le _ hm⟩
      · rw [(estimate_slit_width_spec p r hmax).1 hmem] at hw
        exact absurd hw (by simp)
    · rintro ⟨n, rfl, hn, hrun, hbest⟩
      have hmem : true ∈ thresholdMask p r := true_mem_of_hasRun hn hrun
      have heq : n = runCarry (thresholdMask p r) 0 :=
        le_antisymm (hasRun_le _ hrun) (hbest _ (hasRun_of_runCarry _))
      rw [(estimate_slit_width_spec p r hmax).2 hmem, heq]
  · constructor
    · intro hnone b hb
      by_cases hmem : true ∈ thresholdMask p r
      · rw [(estimate_slit_width_spec p r hmax).2 hmem] at hnone
        exact absurd hnone (by simp)
      · cases b
        · rfl
        · exact absurd hb hmem
    · intro hall
      refine (estimate_slit_width_spec p r hmax).1 fun hmem => ?_
      exact absurd (hall _ hmem) (by simp)

/-- Witness for `claim_C3_band_width_run` at a synthetic band profile. -/
theorem claim_C3_band_width_run_witness :
    ∃ n : ℕ, (4 : ℚ) = (n : ℚ) ∧ 0 < n ∧
      HasRun (thresholdMask ([0, 0, 0, 2, 2, 2, 2, 0, 0] : List ℚ) (6 / 10)) n ∧
      ∀ m, HasRun (thresholdMask ([0, 0, 0, 2, 2, 2, 2, 0, 0] : List ℚ) (6 / 10)) m → m ≤ n :=
  (((claim_C3_band_width_run ([0, 0, 0, 2, 2, 2, 2, 0, 0] : List ℚ) (6 / 10)).2
    (by decide)).1 4).mp (by decide)

/-- `C10`: whenever the profile is nonempty with a strictly positive maximum
and the threshold ratio lies in `(0, 1]`, the threshold mask of
`_estimate_slit_width` holds at the index of the maximum sample, so the
`np.any` rejection branch cannot fire and the returned width is a defined
value `≥ 1`. -/
theorem claim_C10_mask_max_defined (p : List ℚ) (r : ℚ)
    (hmax : 0 < listMax p) (hr0 : 0 < r) (hr1 : r ≤ 1) :
    (∃ i, i < p.length ∧ p.getD i 0 = listMax p ∧ (thresholdMask p r).getD i false = true) ∧
    ∃ w : ℚ, estimate_slit_width p r = some w ∧ 1 ≤ w := by
  have hne : p ≠ [] := listMax_pos_ne_nil hmax
  obtain ⟨i, hi, hiv⟩ := List.mem_iff_getElem.mp (listMax_mem hne)
  have hgd : p.getD i 0 = listMax p := by rw [List.getD_eq_getElem _ _ hi]; exact hiv
  have hthr : listMax p * r ≤ p.getD i 0 := by
    rw [hgd]
    calc listMax p * r ≤ listMax p * 1 := by
          exact mul_le_mul_of_nonneg_left hr1 (le_of_lt hmax)
      _ = listMax p := mul_one _
  have hmaskI : (thresholdMask p r).getD i false = true := by
    rw [thresholdMask_getD hi]
    exact decide_eq_true hthr
  have hmem : true ∈ thresholdMask p r := by
    have hi' : i < (thresholdMask p r).length := by simpa [thresholdMask] using hi
    have := List.getElem_mem hi'
    rwa [← List.getD_eq_getElem (thresholdMask p r) false hi', hmaskI] at this
  have hrun1 : 1 ≤ runCarry (thresholdMask p r) 0 := hasRun_le _ (hasRun_one_of_mem hmem)
  refine ⟨⟨i, hi, hgd, hmaskI⟩, ((runCarry (thresholdMask p r) 0 : ℕ) : ℚ),
    (estimate_slit_width_spec p r hmax).2 hmem, ?_⟩
  exact_mod_cast hrun1

/-- Witness for `claim_C10_mask_max_defined` at a concrete band profile with
threshold ratio `3/5`. -/
theorem claim_C10_mask_max_defined_witness :
    (∃ i, i < ([0, 5, 5, 0] : List ℚ).length ∧
      ([0, 5, 5, 0] : List ℚ).getD i 0 = listMax ([0, 5, 5, 0] : List ℚ) ∧
      (thresholdMask ([0, 5, 5, 0] : List ℚ) (3 / 5)).getD i false = true) ∧
    ∃ w : ℚ, estimate_slit_width ([0, 5, 5, 0] : List ℚ) (3 / 5) = some w ∧ 1 ≤ w :=
  claim_C10_mask_max_defined ([0, 5, 5, 0] : List ℚ) (3 / 5)
    (by decide) (by decide) (by decide)

/-! ### Invariants of the peak scan -/

theorem find_fringe_spacing_snd (p : List ℚ) (t r : ℚ) (k : ℕ) :
    (find_fringe_spacing p t r k).2 = fringePeaks p t := by
  unfold find_fringe_spacing
  dsimp only
  split
  · rfl
  · split <;> rfl

theorem mem_peaksLoop {p : List ℚ} {t : ℚ} :
    ∀ {is acc : List ℕ} {a : ℕ}, a ∈ peaksLoop p t is acc →
      a ∈ acc ∨ (a ∈ is ∧ isPeakAt p t a = true)
  | [], acc, a, h => Or.inl (List.mem_reverse.mp h)
  | i :: rest, acc, a, h => by
      rw [peaksLoop] at h
      split at h
      · rename_i hcond
        rcases mem_peaksLoop h with hmem | ⟨hmem, hpk⟩
        · rcases List.mem_cons.mp hmem with rfl | hmem
          · exact Or.inr ⟨List.mem_cons_self _ _, (Bool.and_eq_true_iff.mp hcond).1⟩
          · exact Or.inl hmem
        · exact Or.inr ⟨List.mem_cons_of_mem _ hmem, hpk⟩
      · rcases mem_peaksLoop h with hmem | ⟨hmem, hpk⟩
        · exact Or.inl hmem
        · exact Or.inr ⟨List.mem_cons_of_mem _ hmem, hpk⟩

theorem chain'_peaksLoop {p : List ℚ} {t : ℚ} :
    ∀ {is acc : List ℕ}, List.Chain' (fun a b => b + 2 < a) acc →
      List.Chain' (fun a b => a + 2 < b) (peaksLoop p t is acc)
  | [], acc, h => by
      rw [peaksLoop]
      exact List.chain'_reverse.mpr h
  | i :: rest, acc, h => by
      rw [peaksLoop]
      split
      · rename_i hcond
        refine chain'_peaksLoop ?_
        cases acc with
        | nil => simp
        | cons j acc' =>
            have hgap : gapOk (j :: acc') i = true := (Bool.and_eq_true_iff.mp hcond).2
            have : j + 2 < i := of_decide_eq_true hgap
            exact h.cons this
      · exact chain'_peaksLoop h

theorem peaksLoop_eq_rev_of_no_peak {p : List ℚ} {t : ℚ} :
    ∀ {is acc : List ℕ}, (∀ i ∈ is, isPeakAt p t i = false) →
      peaksLoop p t is acc = acc.reverse
  | [], acc, _ => rfl
  | i :: rest, acc, h => by
      rw [peaksLoop]
      have hi : isPeakAt p t i = false := h i (List.mem_cons_self _ _)
      rw [hi]
      exact peaksLoop_eq_rev_of_no_peak fun j hj => h j (List.mem_cons_of_mem _ hj)

theorem normalizeProfile_const {p : List ℚ} {v : ℚ} (h : ∀ x ∈ p, x = v) :
    ∀ x ∈ normalizeProfile p, x = 0 := by
  have hsh : ∀ x ∈ p.map (fun w => w - listMin p), x = 0 := by
    intro x hx
    obtain ⟨y, hy, rfl⟩ := List.mem_map.mp hx
    have hpne : p ≠ [] := List.ne_nil_of_mem hy
    rw [h y hy, listMin_eq_of_const hpne h, sub_self]
  intro x hx
  simp only [normalizeProfile] at hx
  by_cases hne : p.map (fun w => w - listMin p) = []
  · rw [hne] at hx
    simp [listMax] at hx
  · rw [listMax_eq_of_const hne hsh, if_neg (lt_irrefl 0)] at hx
    exact hsh x hx

theorem isPeakAt_false_of_zero {p : List ℚ} {t : ℚ} (hp : ∀ x ∈ p, x = 0)
    (ht : 0 < t) (i : ℕ) : isPeakAt p t i = false := by
  have hdec : decide (t ≤ p.getD i 0) = false := by
    rw [getD_zero_of_const hp i]
    exact decide_eq_false (not_le.mpr ht)
  rw [isPeakAt, hdec, Bool.and_false]

theorem spacingRejected_false_avg_pos {s : List ℚ} {r : ℚ}
    (h : spacingRejected s r = false) : 0 < listMean s := by
  have := (Bool.or_eq_false_iff.mp ((Bool.or_eq_false_iff.mp h).1)).1
  simpa using of_decide_eq_false this

/-- The acceptance test of `find_fringe_spacing`, with the square root made
explicit: for a positive mean, the code accepts exactly when
`std / mean ≤ max_std_ratio` where `std = √(popVariance)`. -/
theorem spacingRejected_false_iff (s : List ℚ) (r : ℚ) (havg : 0 < listMean s) :
    spacingRejected s r = false ↔
      Real.sqrt ((popVariance s : ℚ) : ℝ) / ((listMean s : ℚ) : ℝ) ≤ (r : ℝ) := by
  have havgR : (0 : ℝ) < ((listMean s : ℚ) : ℝ) := by exact_mod_cast havg
  have hvarR : (0 : ℝ) ≤ ((popVariance s : ℚ) : ℝ) := by
    exact_mod_cast popVariance_nonneg s
  rw [div_le_iff₀ havgR]
  constructor
  · intro h
    have h' := Bool.or_eq_false_iff.mp h
    have h1 := Bool.or_eq_false_iff.mp h'.1
    have hr : ¬ r < 0 := of_decide_eq_false h1.2
    have hvar : ¬ r ^ 2 * listMean s ^ 2 < popVariance s := of_decide_eq_false h'.2
    have hrR : (0 : ℝ) ≤ (r : ℝ) := by exact_mod_cast not_lt.mp hr
    have hvarR' : ((popVariance s : ℚ) : ℝ) ≤ (r : ℝ) ^ 2 * ((listMean s : ℚ) : ℝ) ^ 2 := by
      exact_mod_cast not_lt.mp hvar
    refine Real.sqrt_le_iff.mpr ⟨by positivity, ?_⟩
    nlinarith [hvarR']
  · intro h
    obtain ⟨hge, hle⟩ := Real.sqrt_le_iff.mp h
    have hr : (0 : ℝ) ≤ (r : ℝ) := by nlinarith [havgR]
    have hvar : ((popVariance s : ℚ) : ℝ) ≤ (r : ℝ) ^ 2 * ((listMean s : ℚ) : ℝ) ^ 2 := by
      nlinarith [hge]
    have h1 : decide (listMean s ≤ 0) = false := by
      simpa using not_le.mpr havg
    have h2 : decide (r < 0) = false := by
      simp only [decide_eq_false_iff_not, not_lt]
      exact_mod_cast hr
    have h3 : decide (r ^ 2 * listMean s ^ 2 < popVariance s) = false := by
      simp only [decide_eq_false_iff_not, not_lt]
      exact_mod_cast hvar
    rw [spacingRejected]
    simp only [h1, h2, h3, Bool.or_self, Bool.or_false]

/-- `C1`: the acceptance contract of `find_fringe_spacing`.  The peak list
is returned in every case; the spacing is `None` whenever fewer than 2 valid
spacings remain or fewer than `min_peaks` peaks were found; otherwise the
mean of the valid spacings is returned if and only if that mean is positive
and the ratio (population standard deviation / mean) of the spacings is at
most `max_std_ratio`. -/
theorem claim_C1_peak_spacing_contract (p : List ℚ) (t r : ℚ) (k : ℕ) :
    (find_fringe_spacing p t r k).2 = fringePeaks p t ∧
    ((fringeSpacings p t).length < 2 ∨ (fringePeaks p t).length < k →
      (find_fringe_spacing p t r k).1 = none) ∧
    (2 ≤ (fringeSpacings p t).length → k ≤ (fringePeaks p t).length →
      (((find_fringe_spacing p t r k).1 = some (listMean (fringeSpacings p t))) ↔
        (0 < listMean (fringeSpacings p t) ∧
          Real.sqrt ((popVariance (fringeSpacings p t) : ℚ) : ℝ) /
            ((listMean (fringeSpacings p t) : ℚ) : ℝ) ≤ (r : ℝ))) ∧
      (((find_fringe_spacing p t r k).1 = none) ↔
        ¬(0 < listMean (fringeSpacings p t) ∧
          Real.sqrt ((popVariance (fringeSpacings p t) : ℚ) : ℝ) /
            ((listMean (fringeSpacings p t) : ℚ) : ℝ) ≤ (r : ℝ)))) := by
  refine ⟨find_fringe_spacing_snd p t r k, ?_, ?_⟩
  · intro h
    unfold find_fringe_spacing
    dsimp only
    rw [if_pos h]
  · intro h2 hk
    have hcond : ¬((fringeSpacings p t).length < 2 ∨ (fringePeaks p t).length < k) := by
      push_neg
      exact ⟨h2, hk⟩
    have hfst : (find_fringe_spacing p t r k).1 =
        if spacingRejected (fringeSpacings p t) r then none
        else some (listMean (fringeSpacings p t)) := by
      unfold find_fringe_spacing
      dsimp only
      rw [if_neg hcond]
      split <;> rfl
    by_cases hrej : spacingRejected (fringeSpacings p t) r = true
    · rw [hfst, if_pos hrej]
      have hnot : ¬(0 < listMean (fringeSpacings p t) ∧
          Real.sqrt ((popVariance (fringeSpacings p t) : ℚ) : ℝ) /
            ((listMean (fringeSpacings p t) : ℚ) : ℝ) ≤ (r : ℝ)) := by
        rintro ⟨havg, hratio⟩
        have := (spacingRejected_false_iff (fringeSpacings p t) r havg).mpr hratio
        rw [this] at hrej
        exact absurd hrej (by simp)
      constructor
      · constructor
        · intro h
          exact absurd h (by simp)
        · intro h
          exact absurd h hnot
      · exact ⟨fun _ => hnot, fun _ => rfl⟩
    · have hrej' : spacingRejected (fringeSpacings p t) r = false :=
        Bool.eq_false_iff.mpr hrej
      have havg : 0 < listMean (fringeSpacings p t) := spacingRejected_false_avg_pos hrej'
      have hratio := (spacingRejected_false_iff (fringeSpacings p t) r havg).mp hrej'
      rw [hfst, if_neg hrej]
      constructor
      · exact ⟨fun _ => ⟨havg, hratio⟩, fun _ => rfl⟩
      · constructor
        · intro h
          exact absurd h (by simp)
        · intro h
          exact absurd ⟨havg, hratio⟩ h

/-- Witness for `claim_C1_peak_spacing_contract` at a profile with three
evenly spaced peaks: the spacing 3 is accepted. -/
theorem claim_C1_peak_spacing_contract_witness :
    (find_fringe_spacing ([0, 1, 0, 0, 1, 0, 0, 1, 0] : List ℚ) (1 / 2) (1 / 5) 3).1 =
      some (listMean (fringeSpacings ([0, 1, 0, 0, 1, 0, 0, 1, 0] : List ℚ) (1 / 2))) :=
  (((claim_C1_peak_spacing_contract ([0, 1, 0, 0, 1, 0, 0, 1, 0] : List ℚ) (1 / 2) (1 / 5) 3).2.2
      (by decide) (by decide)).1).mpr
    (by
      constructor
      · decide
      · have hvar : popVariance (fringeSpacings ([0, 1, 0, 0, 1, 0, 0, 1, 0] : List ℚ) (1 / 2))
            = 0 := by decide
        rw [hvar]
        have havg : (0 : ℝ) < ((listMean (fringeSpacings
            ([0, 1, 0, 0, 1, 0, 0, 1, 0] : List ℚ) (1 / 2)) : ℚ) : ℝ) := by
          exact_mod_cast (by decide :
            (0 : ℚ) < listMean (fringeSpacings ([0, 1, 0, 0, 1, 0, 0, 1, 0] : List ℚ) (1 / 2)))
        rw [Rat.cast_zero, Real.sqrt_zero, div_eq_zero_iff.mpr (Or.inl rfl)]
        positivity)

/-- `C9`: the peak list of `find_fringe_spacing` is strictly increasing with
consecutive peaks more than 2 apart, every listed index is interior, and
each is a local maximum of the normalized profile at or above the clamped
threshold. -/
theorem claim_C9_peak_list_invariants (p : List ℚ) (t r : ℚ) (k : ℕ) :
    List.Chain' (fun a b => a + 2 < b) ((find_fringe_spacing p t r k).2) ∧
    List.Chain' (fun a b => a < b) ((find_fringe_spacing p t r k).2) ∧
    ∀ i ∈ (find_fringe_spacing p t r k).2,
      0 < i ∧ i + 1 < p.length ∧
      (normalizeProfile p).getD (i - 1) 0 ≤ (normalizeProfile p).getD i 0 ∧
      (normalizeProfile p).getD (i + 1) 0 ≤ (normalizeProfile p).getD i 0 ∧
      clampThreshold t ≤ (normalizeProfile p).getD i 0 := by
  rw [find_fringe_spacing_snd p t r k]
  have hchain : List.Chain' (fun a b => a + 2 < b) (fringePeaks p t) :=
    chain'_peaksLoop (by simp)
  refine ⟨hchain, hchain.imp fun a b h => by omega, ?_⟩
  intro i hi
  rcases mem_peaksLoop hi with hmem | ⟨hmem, hpk⟩
  · exact absurd hmem (List.not_mem_nil i)
  · have hrange := List.mem_range'_1.mp hmem
    have hlen : (normalizeProfile p).length = p.length := by
      rw [normalizeProfile]
      split <;> simp
    rw [hlen] at hrange
    have h1 : 0 < i := hrange.1
    have h2 : i + 1 < p.length := by omega
    have hpk' := Bool.and_eq_true_iff.mp hpk
    have hpk'' := Bool.and_eq_true_iff.mp hpk'.1
    exact ⟨h1, h2, of_decide_eq_true hpk''.1, of_decide_eq_true hpk''.2,
      of_decide_eq_true hpk'.2⟩

/-- Witness for `claim_C9_peak_list_invariants`: the properties at the first
detected peak of a concrete three-peak profile. -/
theorem claim_C9_peak_list_invariants_witness :
    0 < 1 ∧ 1 + 1 < ([0, 1, 0, 0, 1, 0, 0, 1, 0] : List ℚ).length ∧
    (normalizeProfile ([0, 1, 0, 0, 1, 0, 0, 1, 0] : List ℚ)).getD 0 0 ≤
      (normalizeProfile ([0, 1, 0, 0, 1, 0, 0, 1, 0] : List ℚ)).getD 1 0 ∧
    (normalizeProfile ([0, 1, 0, 0, 1, 0, 0, 1, 0] : List ℚ)).getD 2 0 ≤
      (normalizeProfile ([0, 1, 0, 0, 1, 0, 0, 1, 0] : List ℚ)).getD 1 0 ∧
    clampThreshold (1 / 2) ≤ (normalizeProfile ([0, 1, 0, 0, 1, 0, 0, 1, 0] : List ℚ)).getD 1 0 :=
  (claim_C9_peak_list_invariants ([0, 1, 0, 0, 1, 0, 0, 1, 0] : List ℚ) (1 / 2) (1 / 5) 3).2.2
    1 (by decide)

/-- `C6` (amended): on a constant (in particular all-zero) profile the
autocorrelation estimator is always undetermined; the band-width estimator
is undetermined whenever the constant value is not positive (in particular
on all-zero profiles); and the peak-spacing estimator is undetermined, with
an empty peak list, whenever the clamped peak threshold is positive.  (When
the threshold clamps to 0, or the constant is positive for the band-width
estimator, numeric results do occur: see the counterexample.) -/
theorem claim_C6_degenerate_profiles :
    (∀ (p : List ℚ) (v : ℚ), (∀ x ∈ p, x = v) → estimate_fringe_spacing_px p = none) ∧
    (∀ (p : List ℚ) (v r : ℚ), (∀ x ∈ p, x = v) → v ≤ 0 → estimate_slit_width p r = none) ∧
    (∀ (p : List ℚ) (v t r : ℚ) (k : ℕ), (∀ x ∈ p, x = v) → 0 < clampThreshold t →
      find_fringe_spacing p t r k = (none, [])) := by
  refine ⟨?_, ?_, ?_⟩
  · intro p v h
    by_cases h1 : p.length < 50 ∨ listMax p ≤ 0
    · rw [estimate_fringe_spacing_px, if_pos h1]
    · have hne : p ≠ [] := by
        intro hp
        exact h1 (Or.inl (by simp [hp]))
      have hc : ∀ x ∈ centered p, x = 0 := by
        intro x hx
        obtain ⟨y, hy, rfl⟩ := List.mem_map.mp hx
        rw [h y hy, listMean_eq_of_const hne h, sub_self]
      rw [estimate_fringe_spacing_px, if_neg h1, if_pos hc]
  · intro p v r h hv
    refine estimate_slit_width_of_max_nonpos p r ?_
    by_cases hp : p = []
    · simp [hp, listMax]
    · rw [listMax_eq_of_const hp h]
      exact hv
  · intro p v t r k h ht
    have hzero : ∀ x ∈ normalizeProfile p, x = 0 := normalizeProfile_const h
    have hpeaks : fringePeaks p t = [] := by
      rw [fringePeaks, findPeaks]
      exact peaksLoop_eq_rev_of_no_peak fun i _ => isPeakAt_false_of_zero hzero ht i
    have hsp : fringeSpacings p t = [] := by
      rw [fringeSpacings, hpeaks]
      rfl
    unfold find_fringe_spacing
    dsimp only
    rw [if_pos]
    · rw [hpeaks]
    · rw [hsp]
      exact Or.inl (by simp)

/-- Counterexample to `C6` as stated: constant profiles do produce numeric
values — the band-width estimator returns the full profile length on a
constant positive profile, and with a peak threshold that clamps to 0 the
peak-spacing estimator returns the spacing 3 on a constant profile. -/
theorem claim_C6_counterexample :
    estimate_slit_width (List.replicate 4 (1 : ℚ)) (6 / 10) = some 4 ∧
    (find_fringe_spacing (List.replicate 12 (5 : ℚ)) 0 (1 / 5) 3).1 = some 3 := by
  exact ⟨by decide, by decide⟩

/-- Witness for `claim_C6_degenerate_profiles` at an all-zero profile. -/
theorem claim_C6_degenerate_profiles_witness :
    estimate_slit_width (List.replicate 3 (0 : ℚ)) (6 / 10) = none :=
  claim_C6_degenerate_profiles.2.1 (List.replicate 3 (0 : ℚ)) 0 (6 / 10)
    (fun x hx => List.eq_of_mem_replicate hx) le_rfl

/-! ### The autocorrelation lag search -/

theorem argmaxList_lt_length : ∀ {l : List ℚ}, l ≠ [] → argmaxList l < l.length
  | [], h => absurd rfl h
  | [_], _ => by simp [argmaxList]
  | x :: y :: r, _ => by
      rw [argmaxList]
      split
      · have := argmaxList_lt_length (l := y :: r) (by simp)
        simpa using Nat.succ_lt_succ this
      · simp

theorem getD_argmaxList : ∀ {l : List ℚ}, l ≠ [] → l.getD (argmaxList l) 0 = listMax l
  | [], h => absurd rfl h
  | [x], _ => by simp [argmaxList, listMax]
  | x :: y :: r, _ => by
      rw [argmaxList]
      split
      · rename_i hlt
        have ih := getD_argmaxList (l := y :: r) (by simp)
        rw [listMax, max_eq_right (le_of_lt hlt), List.getD_cons_succ]
        exact ih
      · rename_i hge
        rw [listMax, max_eq_left (not_lt.mp hge), List.getD_cons_zero]

theorem getD_lt_listMax_of_lt_argmaxList :
    ∀ {l : List ℚ} {i : ℕ}, i < argmaxList l → l.getD i 0 < listMax l
  | [], i, h => by simp [argmaxList] at h
  | [x], i, h => by simp [argmaxList] at h
  | x :: y :: r, i, h => by
      rw [argmaxList] at h
      split at h
      · rename_i hlt
        cases i with
        | zero =>
            rw [List.getD_cons_zero, listMax, max_eq_right (le_of_lt hlt)]
            exact hlt
        | succ j =>
            have ih := getD_lt_listMax_of_lt_argmaxList (l := y :: r) (i := j) (by omega)
            rw [List.getD_cons_succ, listMax, max_eq_right (le_of_lt hlt)]
            exact ih
      · omega

theorem getD_map_range' (f : ℕ → ℚ) (a n i : ℕ) (hi : i < n) :
    ((List.range' a n).map f).getD i 0 = f (a + i) := by
  have hlen : i < ((List.range' a n).map f).length := by simpa using hi
  rw [List.getD_eq_getElem _ _ hlen]
  simp [List.getElem_range'_1]

theorem getD_mem_of_lt {l : List ℚ} {i : ℕ} (hi : i < l.length) : l.getD i 0 ∈ l := by
  rw [List.getD_eq_getElem _ _ hi]
  exact List.getElem_mem hi

theorem lag_window_ok {L : ℕ} (hL : 50 ≤ L) :
    max 5 (L / 100) + 2 < min (L - 1) (L / 2) := by
  omega

/-- `C2` (amended): `estimate_fringe_spacing_px` rejects short, dark, or
contrast-free edge profiles; otherwise it returns exactly the first (lowest)
lag attaining the maximum autocorrelation over the half-open lag window
`[max(5, 1% of length), min(length-1, 50% of length))` — the upper bound is
excluded by the Python slice `ac[min_lag:max_lag]` — and only if that
maximum autocorrelation value is strictly positive. -/
theorem claim_C2_autocorr_window (p : List ℚ) :
    (p.length < 50 ∨ listMax p ≤ 0 → estimate_fringe_spacing_px p = none) ∧
    ((∀ x ∈ centered p, x = 0) → estimate_fringe_spacing_px p = none) ∧
    (50 ≤ p.length → 0 < listMax p → ¬(∀ x ∈ centered p, x = 0) →
      ∀ w : ℚ, estimate_fringe_spacing_px p = some w ↔
        ∃ lag : ℕ, w = (lag : ℚ) ∧ minLagOf p ≤ lag ∧ lag < maxLagOf p ∧
          0 < acOf p lag ∧
          (∀ j, minLagOf p ≤ j → j < maxLagOf p → acOf p j ≤ acOf p lag) ∧
          (∀ j, minLagOf p ≤ j → j < maxLagOf p → acOf p j = acOf p lag → lag ≤ j)) := by
  refine ⟨?_, ?_, ?_⟩
  · intro h
    rw [estimate_fringe_spacing_px, if_pos h]
  · intro h
    by_cases h1 : p.length < 50 ∨ listMax p ≤ 0
    · rw [estimate_fringe_spacing_px, if_pos h1]
    · rw [estimate_fringe_spacing_px, if_neg h1, if_pos h]
  · intro hL hmax hcz w
    have h1 : ¬(p.length < 50 ∨ listMax p ≤ 0) := by
      push_neg
      exact ⟨hL, hmax⟩
    have hwin := lag_window_ok hL
    have hguard : ¬(maxLagOf p ≤ minLagOf p + 2) := by
      simp only [minLagOf, maxLagOf] at *
      omega
    have hab : minLagOf p + 2 < maxLagOf p := not_le.mp hguard
    have hfun : estimate_fringe_spacing_px p =
        (if acOf p (argmaxList ((List.range' (minLagOf p) (maxLagOf p - minLagOf p)).map
              (acOf p)) + minLagOf p) ≤ 0 then none
         else some ((argmaxList ((List.range' (minLagOf p) (maxLagOf p - minLagOf p)).map
              (acOf p)) + minLagOf p : ℕ) : ℚ)) := by
      rw [estimate_fringe_spacing_px, if_neg h1, if_neg hcz, if_neg hguard]
    have hsegne : (List.range' (minLagOf p) (maxLagOf p - minLagOf p)).map (acOf p) ≠ [] := by
      have : 0 < maxLagOf p - minLagOf p := by omega
      intro hnil
      have := congrArg List.length hnil
      simp at this
      omega
    have hseglen : ((List.range' (minLagOf p) (maxLagOf p - minLagOf p)).map (acOf p)).length
        = maxLagOf p - minLagOf p := by simp
    have hj0 : argmaxList ((List.range' (minLagOf p) (maxLagOf p - minLagOf p)).map (acOf p))
        < maxLagOf p - minLagOf p := by
      have := argmaxList_lt_length hsegne
      rwa [hseglen] at this
    have hlag0val : acOf p (argmaxList ((List.range' (minLagOf p)
          (maxLagOf p - minLagOf p)).map (acOf p)) + minLagOf p)
        = listMax ((List.range' (minLagOf p) (maxLagOf p - minLagOf p)).map (acOf p)) := by
      have := getD_argmaxList hsegne
      rw [getD_map_range' _ _ _ _ hj0] at this
      rw [← this, Nat.add_comm]
    have hle : ∀ j, minLagOf p ≤ j → j < maxLagOf p →
        acOf p j ≤ listMax ((List.range' (minLagOf p) (maxLagOf p - minLagOf p)).map
          (acOf p)) := by
      intro j hja hjb
      have hji : j - minLagOf p < maxLagOf p - minLagOf p := by omega
      have hmem := getD_mem_of_lt (l := (List.range' (minLagOf p)
        (maxLagOf p - minLagOf p)).map (acOf p)) (i := j - minLagOf p) (by simpa using hji)
      rw [getD_map_range' _ _ _ _ hji] at hmem
      have hj' : minLagOf p + (j - minLagOf p) = j := by omega
      rw [hj'] at hmem
      exact le_listMax hmem
    have hstrict : ∀ j, minLagOf p ≤ j →
        j < argmaxList ((List.range' (minLagOf p) (maxLagOf p - minLagOf p)).map (acOf p))
          + minLagOf p →
        acOf p j < listMax ((List.range' (minLagOf p) (maxLagOf p - minLagOf p)).map
          (acOf p)) := by
      intro j hja hjlt
      have hji : j - minLagOf p < argmaxList ((List.range' (minLagOf p)
          (maxLagOf p - minLagOf p)).map (acOf p)) := by omega
      have := getD_lt_listMax_of_lt_argmaxList (l := (List.range' (minLagOf p)
        (maxLagOf p - minLagOf p)).map (acOf p)) hji
      rw [getD_map_range' _ _ _ _ (by omega)] at this
      have hj' : minLagOf p + (j - minLagOf p) = j := by omega
      rwa [hj'] at this
    have hlag0a : minLagOf p ≤ argmaxList ((List.range' (minLagOf p)
        (maxLagOf p - minLagOf p)).map (acOf p)) + minLagOf p := Nat.le_add_left _ _
    have hlag0b : argmaxList ((List.range' (minLagOf p) (maxLagOf p - minLagOf p)).map
        (acOf p)) + minLagOf p < maxLagOf p := by omega
    by_cases hpos : acOf p (argmaxList ((List.range' (minLagOf p)
        (maxLagOf p - minLagOf p)).map (acOf p)) + minLagOf p) ≤ 0
    · rw [hfun, if_pos hpos]
      constructor
      · intro h
        exact absurd h (by simp)
      · rintro ⟨lag, hw, hla, hlb, hlpos, hlmax, _⟩
        have h1 := hlmax _ hlag0a hlag0b
        have h2 := hle lag hla hlb
        rw [hlag0val] at hpos
        linarith
    · rw [hfun, if_neg hpos]
      push_neg at hpos
      constructor
      · intro h
        have hw : w = ((argmaxList ((List.range' (minLagOf p)
            (maxLagOf p - minLagOf p)).map (acOf p)) + minLagOf p : ℕ) : ℚ) :=
          (Option.some_injective _ h).symm
        refine ⟨_, hw, hlag0a, hlag0b, hpos, ?_, ?_⟩
        · intro j hja hjb
          rw [hlag0val]
          exact hle j hja hjb
        · intro j hja hjb hjeq
          by_contra hflt
          have := hstrict j hja (by omega)
          rw [← hlag0val] at this
          rw [hjeq] at this
          exact lt_irrefl _ this
      · rintro ⟨lag, hw, hla, hlb, hlpos, hlmax, hlfirst⟩
        have heq1 : acOf p (argmaxList ((List.range' (minLagOf p)
            (maxLagOf p - minLagOf p)).map (acOf p)) + minLagOf p) = acOf p lag := by
          refine le_antisymm (hlmax _ hlag0a hlag0b) ?_
          rw [hlag0val]
          exact hle lag hla hlb
        have hlagle : lag ≤ argmaxList ((List.range' (minLagOf p)
            (maxLagOf p - minLagOf p)).map (acOf p)) + minLagOf p :=
          hlfirst _ hlag0a hlag0b heq1
        have hlagge : argmaxList ((List.range' (minLagOf p)
            (maxLagOf p - minLagOf p)).map (acOf p)) + minLagOf p ≤ lag := by
          by_contra hflt
          have := hstrict lag hla (by omega)
          rw [← hlag0val, heq1] at this
          exact lt_irrefl _ this
        have : lag = argmaxList ((List.range' (minLagOf p)
            (maxLagOf p - minLagOf p)).map (acOf p)) + minLagOf p :=
          le_antisymm hlagle hlagge
        rw [hw, this]

/-- Counterexample to `C2` as stated: in the claimed inclusive lag window
`[5, 25]` of `exSpikeProfile`, lag 25 attains the maximal and strictly
positive autocorrelation, so the claim predicts the result `25`; the code
searches `ac[min_lag:max_lag]`, which excludes lag 25, and returns `None`. -/
theorem claim_C2_counterexample :
    minLagOf exSpikeProfile = 5 ∧ maxLagOf exSpikeProfile = 25 ∧
    0 < acOf exSpikeProfile 25 ∧
    (∀ j < 26, 5 ≤ j → acOf exSpikeProfile j ≤ acOf exSpikeProfile 25) ∧
    estimate_fringe_spacing_px exSpikeProfile = none := by
  exact ⟨by decide, by decide, by decide, by decide, by decide⟩

/-- Witness for `claim_C2_autocorr_window` on the periodic profile: the
returned spacing 10 is the first maximal positive lag of the window. -/
theorem claim_C2_autocorr_window_witness :
    ∃ lag : ℕ, (10 : ℚ) = (lag : ℚ) ∧ minLagOf exPeriodicProfile ≤ lag ∧
      lag < maxLagOf exPeriodicProfile ∧ 0 < acOf exPeriodicProfile lag ∧
      (∀ j, minLagOf exPeriodicProfile ≤ j → j < maxLagOf exPeriodicProfile →
        acOf exPeriodicProfile j ≤ acOf exPeriodicProfile lag) ∧
      (∀ j, minLagOf exPeriodicProfile ≤ j → j < maxLagOf exPeriodicProfile →
        acOf exPeriodicProfile j = acOf exPeriodicProfile lag → lag ≤ j) :=
  ((claim_C2_autocorr_window exPeriodicProfile).2.2 (by decide) (by decide)
    (by decide) 10).mp (by decide)

/-- A successful autocorrelation search always returns a lag inside the
half-open window with strictly positive autocorrelation. -/
theorem estimate_fringe_spacing_px_some (p : List ℚ) (w : ℚ)
    (h : estimate_fringe_spacing_px p = some w) :
    ∃ lag : ℕ, minLagOf p ≤ lag ∧ lag < maxLagOf p ∧ 0 < acOf p lag ∧ w = (lag : ℚ) := by
  by_cases h1 : p.length < 50 ∨ listMax p ≤ 0
  · rw [estimate_fringe_spacing_px, if_pos h1] at h
    exact absurd h (by simp)
  by_cases h2 : ∀ x ∈ centered p, x = 0
  · rw [estimate_fringe_spacing_px, if_neg h1, if_pos h2] at h
    exact absurd h (by simp)
  by_cases h3 : maxLagOf p ≤ minLagOf p + 2
  · rw [estimate_fringe_spacing_px, if_neg h1, if_neg h2, if_pos h3] at h
    exact absurd h (by simp)
  have hfun : estimate_fringe_spacing_px p =
      (if acOf p (argmaxList ((List.range' (minLagOf p) (maxLagOf p - minLagOf p)).map
            (acOf p)) + minLagOf p) ≤ 0 then none
       else some ((argmaxList ((List.range' (minLagOf p) (maxLagOf p - minLagOf p)).map
            (acOf p)) + minLagOf p : ℕ) : ℚ)) := by
    rw [estimate_fringe_spacing_px, if_neg h1, if_neg h2, if_neg h3]
  rw [hfun] at h
  split at h
  · exact absurd h (by simp)
  · rename_i hpos
    push_neg at hpos
    have hsegne : (List.range' (minLagOf p) (maxLagOf p - minLagOf p)).map (acOf p) ≠ [] := by
      intro hnil
      have := congrArg List.length hnil
      simp at this
      omega
    have hj0 : argmaxList ((List.range' (minLagOf p) (maxLagOf p - minLagOf p)).map (acOf p))
        < maxLagOf p - minLagOf p := by
      have := argmaxList_lt_length hsegne
      rwa [List.length_map, List.length_range'] at this
    exact ⟨_, Nat.le_add_left _ _, by omega, hpos, (Option.some_injective _ h).symm⟩

/-! ### Calibration and physical units -/

/-- `C4`: `mm_per_px_from_calibration` fails with an error when the known
length is absent or not positive, or when the pixel distance is zero (the
two points coincide); otherwise it returns exactly
`knownLength / pixelDistance`.  Points 10 px apart with known length 5 mm
give the scale 1/2 mm/px exactly, and applying that scale to a 20 px
spacing gives 10 mm. -/
theorem claim_C4_calibration_scale :
    (∀ p0 p1 : ℚ × ℚ, mm_per_px_from_calibration p0 p1 none =
      .error "Invalid known length (mm).") ∧
    (∀ (p0 p1 : ℚ × ℚ) (k : ℚ), k ≤ 0 → mm_per_px_from_calibration p0 p1 (some k) =
      .error "Invalid known length (mm).") ∧
    (∀ (p0 : ℚ × ℚ) (k : ℚ), 0 < k → mm_per_px_from_calibration p0 p0 (some k) =
      .error "Invalid pixel distance (0).") ∧
    (∀ (p0 p1 : ℚ × ℚ) (k : ℚ), 0 < k → p0 ≠ p1 →
      mm_per_px_from_calibration p0 p1 (some k) =
        .ok ((k : ℝ) / Real.sqrt ((distSq p0 p1 : ℚ) : ℝ))) ∧
    mm_per_px_from_calibration (0, 0) (10, 0) (some 5) = .ok ((1 / 2 : ℝ)) ∧
    toPhysical 20 (1 / 2) = 10 := by
  have hsame : ∀ p0 : ℚ × ℚ, ((distSq p0 p0 : ℚ) : ℝ) = 0 := by
    intro p0
    simp [distSq]
  have hdiff : ∀ p0 p1 : ℚ × ℚ, p0 ≠ p1 → 0 < ((distSq p0 p1 : ℚ) : ℝ) := by
    intro p0 p1 hne
    have : distSq p0 p1 ≠ 0 := by
      intro h0
      apply hne
      have h1 : (p1.1 - p0.1) ^ 2 + (p1.2 - p0.2) ^ 2 = 0 := h0
      have h2 : (p1.1 - p0.1) ^ 2 = 0 ∧ (p1.2 - p0.2) ^ 2 = 0 := by
        constructor <;> nlinarith [sq_nonneg (p1.1 - p0.1), sq_nonneg (p1.2 - p0.2)]
      have e1 : p0.1 = p1.1 := by
        have := pow_eq_zero_iff (n := 2) (by norm_num) |>.mp h2.1
        linarith [sub_eq_zero.mp this]
      have e2 : p0.2 = p1.2 := by
        have := pow_eq_zero_iff (n := 2) (by norm_num) |>.mp h2.2
        linarith [sub_eq_zero.mp this]
      exact Prod.ext e1 e2
    have hnn : 0 ≤ distSq p0 p1 := by
      have := sq_nonneg (p1.1 - p0.1)
      have := sq_nonneg (p1.2 - p0.2)
      rw [distSq]
      positivity
    exact_mod_cast lt_of_le_of_ne hnn (Ne.symm this)
  refine ⟨fun p0 p1 => rfl, ?_, ?_, ?_, ?_, ?_⟩
  · intro p0 p1 k hk
    rw [mm_per_px_from_calibration, if_pos hk]
  · intro p0 k hk
    rw [mm_per_px_from_calibration, if_neg (not_le.mpr hk), if_pos]
    rw [hsame p0, Real.sqrt_zero]
  · intro p0 p1 k hk hne
    rw [mm_per_px_from_calibration, if_neg (not_le.mpr hk), if_neg]
    rw [not_le]
    exact Real.sqrt_pos.mpr (hdiff p0 p1 hne)
  · rw [mm_per_px_from_calibration, if_neg (by norm_num), if_neg]
    · have h100 : ((distSq ((0 : ℚ), (0 : ℚ)) ((10 : ℚ), (0 : ℚ)) : ℚ) : ℝ) = 100 := by
        norm_num [distSq]
      rw [h100, show (100 : ℝ) = 10 ^ 2 by norm_num, Real.sqrt_sq (by norm_num)]
      norm_num
    · have h100 : ((distSq ((0 : ℚ), (0 : ℚ)) ((10 : ℚ), (0 : ℚ)) : ℚ) : ℝ) = 100 := by
        norm_num [distSq]
      rw [h100, show (100 : ℝ) = 10 ^ 2 by norm_num, Real.sqrt_sq (by norm_num)]
      norm_num
  · rw [toPhysical]
    norm_num

/-- Witness for `claim_C4_calibration_scale`: the scale for two distinct
points at distance 5 (a 3-4-5 triangle) and known length 2. -/
theorem claim_C4_calibration_scale_witness :
    mm_per_px_from_calibration ((0 : ℚ), (0 : ℚ)) ((3 : ℚ), (4 : ℚ)) (some 2) =
      .ok ((2 : ℝ) / Real.sqrt ((distSq ((0 : ℚ), (0 : ℚ)) ((3 : ℚ), (4 : ℚ)) : ℚ) : ℝ)) :=
  claim_C4_calibration_scale.2.2.2.1 (0, 0) (3, 4) 2 (by norm_num) (by decide)

/-- `C5`: the optional slit width equals
`(wavelength · 10⁻⁶) · screenDistance / physicalSpacing`, converting the
wavelength from nm to mm, and is produced exactly when both optics inputs
are present and the physical spacing is positive; a withheld optics input
yields an absent (never zero or substituted) output.  At 650 nm, 1000 mm
and spacing 5 mm the output is exactly 0.13 mm. -/
theorem claim_C5_slit_width_optics (w d : Option ℚ) (s : ℚ) :
    (∀ v : ℚ, slit_width_mm w d s = some v ↔
      ∃ wv dv : ℚ, w = some wv ∧ d = some dv ∧ 0 < s ∧ v = wv * (1 / 1000000) * dv / s) ∧
    ((w = none ∨ d = none) → slit_width_mm w d s = none) ∧
    slit_width_mm (some 650) (some 1000) 5 = some (13 / 100) := by
  refine ⟨?_, ?_, by decide⟩
  · intro v
    cases w with
    | none => simp [slit_width_mm]
    | some wv =>
        cases d with
        | none => simp [slit_width_mm]
        | some dv =>
            by_cases hs : 0 < s
            · simp only [slit_width_mm, if_pos hs, Option.some_inj]
              constructor
              · intro hv
                exact ⟨wv, dv, rfl, rfl, hs, hv.symm⟩
              · rintro ⟨wv', dv', hw', hd', _, hv⟩
                rw [hv, hw', hd']
            · simp only [slit_width_mm, if_neg hs]
              constructor
              · intro hv
                exact absurd hv (by simp)
              · rintro ⟨_, _, _, _, hs', _⟩
                exact absurd hs' hs
  · rintro (rfl | rfl)
    · rfl
    · cases w <;> rfl

/-- Witness for `claim_C5_slit_width_optics`: a withheld wavelength omits
the slit-width output. -/
theorem claim_C5_slit_width_optics_witness :
    slit_width_mm none (some 1000) 5 = none :=
  (claim_C5_slit_width_optics none (some 1000) 5).2.1 (Or.inl rfl)

/-! ### How measurement failures are signalled -/

/-- `C7` (amended): the expected failure outcomes of the peak-spacing,
autocorrelation and `backend/app.py` band-width estimators (empty input, no
signal, insufficient peaks, inconsistent spacings, no periodicity) are
returned as `None`; but the `diffraction_capture/backend/app.py` slit-width
estimator signals no-signal and no-bright-band failures by raising
`ValueError`, and invalid calibration input makes
`mm_per_px_from_calibration` raise `RuntimeError` — those two operations
signal expected failures by throwing, contrary to the claim. -/
theorem claim_C7_failure_signalling :
    (∀ r : ℚ, estimate_slit_width [] r = none) ∧
    (∀ (p : List ℚ) (r : ℚ), listMax p ≤ 0 → estimate_slit_width p r = none) ∧
    (∀ (p : List ℚ) (t r : ℚ) (k : ℕ), (fringePeaks p t).length < k →
      (find_fringe_spacing p t r k).1 = none) ∧
    (∀ (p : List ℚ) (t r : ℚ) (k : ℕ),
      r ^ 2 * listMean (fringeSpacings p t) ^ 2 < popVariance (fringeSpacings p t) →
      (find_fringe_spacing p t r k).1 = none) ∧
    (∀ p : List ℚ, (∀ j, minLagOf p ≤ j → j < maxLagOf p → acOf p j ≤ 0) →
      estimate_fringe_spacing_px p = none) ∧
    (∀ p : List ℚ, listMax p ≤ 0 →
      dc_estimate_slit_width p = .error "Image is too dark to locate a slit") ∧
    (∀ (p0 p1 : ℚ × ℚ) (k : ℚ), k ≤ 0 →
      mm_per_px_from_calibration p0 p1 (some k) = .error "Invalid known length (mm).") ∧
    (∀ (p0 : ℚ × ℚ) (k : ℚ), 0 < k →
      mm_per_px_from_calibration p0 p0 (some k) = .error "Invalid pixel distance (0).") := by
  refine ⟨fun r => rfl, estimate_slit_width_of_max_nonpos, ?_, ?_, ?_, ?_, ?_, ?_⟩
  · intro p t r k h
    unfold find_fringe_spacing
    dsimp only
    rw [if_pos (Or.inr h)]
  · intro p t r k h
    by_cases hfew : (fringeSpacings p t).length < 2 ∨ (fringePeaks p t).length < k
    · unfold find_fringe_spacing
      dsimp only
      rw [if_pos hfew]
    · have hrej : spacingRejected (fringeSpacings p t) r = true := by
        rw [spacingRejected]
        simp [decide_eq_true h]
      unfold find_fringe_spacing
      dsimp only
      rw [if_neg hfew, if_pos hrej]
  · intro p h
    by_contra hne
    obtain ⟨w, hw⟩ := Option.ne_none_iff_exists'.mp hne
    obtain ⟨lag, hla, hlb, hpos, _⟩ := estimate_fringe_spacing_px_some p w hw
    exact absurd (h lag hla hlb) (not_le.mpr hpos)
  · intro p h
    rw [dc_estimate_slit_width, if_pos h]
  · intro p0 p1 k hk
    rw [mm_per_px_from_calibration, if_pos hk]
  · intro p0 k hk
    rw [mm_per_px_from_calibration, if_neg (not_le.mpr hk), if_pos]
    have : ((distSq p0 p0 : ℚ) : ℝ) = 0 := by simp [distSq]
    rw [this, Real.sqrt_zero]

/-- Counterexample to `C7` as stated: the `diffraction_capture` backend
signals the no-signal outcome on an all-dark profile by raising
`ValueError`, not by returning an undetermined result. -/
theorem claim_C7_counterexample :
    dc_estimate_slit_width ([0, 0, 0] : List ℚ) =
      .error "Image is too dark to locate a slit" := rfl

/-- Witness for `claim_C7_failure_signalling` at concrete failing inputs. -/
theorem claim_C7_failure_signalling_witness :
    estimate_slit_width ([(-1 : ℚ), -2] : List ℚ) (1 / 2) = none ∧
    mm_per_px_from_calibration ((1 : ℚ), (1 : ℚ)) ((2 : ℚ), (2 : ℚ)) (some (-3)) =
      .error "Invalid known length (mm)." :=
  ⟨claim_C7_failure_signalling.2.1 [(-1 : ℚ), -2] (1 / 2) (by decide),
   claim_C7_failure_signalling.2.2.2.2.2.2.1 (1, 1) (2, 2) (-3) (by norm_num)⟩

theorem exp_mul_natCast (z : ℂ) (k : ℕ) : Complex.exp (z * k) = Complex.exp z ^ k := by
  rw [mul_comm]
  exact Complex.exp_nat_mul z k

/-- Geometric sum of the `n`-th roots of unity at integer frequency `d`:
`n` when `n ∣ d`, and `0` otherwise. -/
theorem rootSum (n : ℕ) (hn : 0 < n) (d : ℤ) :
    ∑ k ∈ Finset.range n, Complex.exp (2 * Real.pi * Complex.I * d / n * k)
      = if (n : ℤ) ∣ d then (n : ℂ) else 0 := by
  have hn0 : (n : ℂ) ≠ 0 := Nat.cast_ne_zero.mpr hn.ne'
  have hterm : ∀ k : ℕ, Complex.exp (2 * Real.pi * Complex.I * d / n * k)
      = Complex.exp (2 * Real.pi * Complex.I * d / n) ^ k := fun k => exp_mul_natCast _ k
  rw [Finset.sum_congr rfl fun k _ => hterm k]
  by_cases hd : (n : ℤ) ∣ d
  · obtain ⟨c, rfl⟩ := hd
    have hz : Complex.exp (2 * Real.pi * Complex.I * ((n : ℤ) * c : ℤ) / n) = 1 := by
      rw [show (2 * Real.pi * Complex.I * (((n : ℤ) * c : ℤ) : ℂ) / n : ℂ)
          = (c : ℤ) * (2 * Real.pi * Complex.I) by push_cast; field_simp; ring]
      exact Complex.exp_int_mul_two_pi_mul_I c
    rw [if_pos ⟨c, rfl⟩, hz]
    simp
  · have hz : Complex.exp (2 * Real.pi * Complex.I * d / n) ≠ 1 := by
      intro h1
      obtain ⟨c, hc⟩ := Complex.exp_eq_one_iff.mp h1
      apply hd
      have h2pi : (2 * (Real.pi : ℂ) * Complex.I) ≠ 0 := by
        have : (Real.pi : ℂ) ≠ 0 := Complex.ofReal_ne_zero.mpr Real.pi_ne_zero
        simp [this, Complex.I_ne_zero]
      have hdc : (d : ℂ) = c * n := by
        field_simp at hc
        have := hc
        field_simp [hn0] at this ⊢
        -- this : 2 * π * I * d = c * (2 * π * I) * n
        have h3 : (2 * (Real.pi : ℂ) * Complex.I) * d
            = (2 * (Real.pi : ℂ) * Complex.I) * (c * n) := by
          linear_combination this
        exact mul_left_cancel₀ h2pi h3
      have : d = c * n := by exact_mod_cast hdc
      exact ⟨c, by rw [this, mul_comm]⟩
    rw [if_neg hd, geom_sum_eq hz n]
    have hzn : Complex.exp (2 * Real.pi * Complex.I * d / n) ^ n = 1 := by
      rw [← exp_mul_natCast]
      rw [show (2 * Real.pi * Complex.I * d / n * n : ℂ)
          = (d : ℤ) * (2 * Real.pi * Complex.I) by push_cast; field_simp; ring]
      exact Complex.exp_int_mul_two_pi_mul_I d
    rw [hzn, sub_self, zero_div]

/-- Expansion of the inverse transform of the conjugate-squared spectrum of
a real signal into the double sum over sample pairs, weighted by the root
orthogonality relation. -/
theorem idft_dft_conj (n : ℕ) (hn : 0 < n) (f : ℕ → ℂ)
    (hre : ∀ j, (starRingEnd ℂ) (f j) = f j) (m : ℕ) :
    idftC n (fun k => dftC n f k * (starRingEnd ℂ) (dftC n f k)) m
      = ∑ j ∈ Finset.range n, ∑ l ∈ Finset.range n,
          f j * f l * (if (n : ℤ) ∣ ((m : ℤ) + l - j) then 1 else 0) := by
  have hn0 : (n : ℂ) ≠ 0 := Nat.cast_ne_zero.mpr hn.ne'
  have hconj : ∀ k : ℕ, (starRingEnd ℂ) (dftC n f k)
      = ∑ l ∈ Finset.range n, f l * Complex.exp (2 * Real.pi * Complex.I * l * k / n) := by
    intro k
    rw [dftC, map_sum]
    refine Finset.sum_congr rfl fun l _ => ?_
    rw [map_mul, hre, ← Complex.exp_conj]
    congr 1
    simp only [map_div₀, map_mul, map_neg, Complex.conj_I, Complex.conj_ofReal,
      map_ofNat, map_natCast]
    ring
  have hstep : ∀ k : ℕ, dftC n f k * (starRingEnd ℂ) (dftC n f k)
        * Complex.exp (2 * Real.pi * Complex.I * k * m / n)
      = ∑ j ∈ Finset.range n, ∑ l ∈ Finset.range n,
          f j * f l * Complex.exp (2 * Real.pi * Complex.I * ((m : ℤ) + l - j : ℤ) / n * k) := by
    intro k
    rw [hconj k, dftC, Finset.sum_mul_sum, Finset.sum_mul]
    refine Finset.sum_congr rfl fun j _ => ?_
    rw [Finset.sum_mul]
    refine Finset.sum_congr rfl fun l _ => ?_
    have harg : -(2 * Real.pi * Complex.I) * j * k / n + 2 * Real.pi * Complex.I * l * k / n
        + 2 * Real.pi * Complex.I * k * m / n
        = 2 * Real.pi * Complex.I * (((m : ℤ) + l - j : ℤ) : ℂ) / n * k := by
      push_cast
      field_simp
      ring
    rw [← harg, Complex.exp_add, Complex.exp_add]
    ring
  rw [idftC, Finset.sum_congr rfl fun k _ => hstep k]
  rw [Finset.sum_comm]
  rw [Finset.sum_div]
  refine Finset.sum_congr rfl fun j _ => ?_
  rw [Finset.sum_comm, Finset.sum_div]
  refine Finset.sum_congr rfl fun l _ => ?_
  rw [← Finset.mul_sum, rootSum n hn ((m : ℤ) + l - j)]
  by_cases hdvd : (n : ℤ) ∣ ((m : ℤ) + l - j)
  · rw [if_pos hdvd, if_pos hdvd, mul_one, mul_div_assoc, div_self hn0, mul_one]
  · rw [if_neg hdvd, if_neg hdvd]
    simp

theorem signalOf_eq_zero {p : List ℝ} {j : ℕ} (hj : p.length ≤ j) : signalOf p j = 0 := by
  rw [signalOf, List.getD_eq_default _ _ hj]
  simp

/-- Collapsing the orthogonality double sum of a zero-padded signal to the
brute-force lag correlation: with padding at least double the length, the
only surviving pairs are those exactly `m` apart. -/
theorem double_sum_collapse (p : List ℝ) (m : ℕ) (hm : m < p.length) (n : ℕ)
    (hn2 : 2 * p.length ≤ n) :
    (∑ j ∈ Finset.range n, ∑ l ∈ Finset.range n,
        signalOf p j * signalOf p l * (if (n : ℤ) ∣ ((m : ℤ) + l - j) then 1 else 0))
      = ((bruteAutocorr p m : ℝ) : ℂ) := by
  have hLn : p.length ≤ n := by omega
  have houter : ∀ j ∈ Finset.range n, j ∉ Finset.range p.length →
      (∑ l ∈ Finset.range n,
        signalOf p j * signalOf p l * (if (n : ℤ) ∣ ((m : ℤ) + l - j) then 1 else 0)) = 0 := by
    intro j _ hj
    rw [Finset.mem_range, not_lt] at hj
    refine Finset.sum_eq_zero fun l _ => ?_
    rw [signalOf_eq_zero hj, zero_mul, zero_mul]
  have hinner : ∀ j, ∀ l ∈ Finset.range n, l ∉ Finset.range p.length →
      signalOf p j * signalOf p l * (if (n : ℤ) ∣ ((m : ℤ) + l - j) then 1 else 0) = 0 := by
    intro j l _ hl
    rw [Finset.mem_range, not_lt] at hl
    rw [signalOf_eq_zero hl, mul_zero, zero_mul]
  rw [← Finset.sum_subset (Finset.range_subset.mpr hLn) houter]
  rw [Finset.sum_congr rfl fun j _ =>
    (Finset.sum_subset (Finset.range_subset.mpr hLn) (hinner j)).symm]
  have hcond : ∀ j ∈ Finset.range p.length, ∀ l ∈ Finset.range p.length,
      ((n : ℤ) ∣ ((m : ℤ) + l - j)) ↔ (m ≤ j ∧ l = j - m) := by
    intro j hj l hl
    rw [Finset.mem_range] at hj hl
    constructor
    · rintro ⟨c, hc⟩
      have hd0 : (m : ℤ) + l - j = 0 := by
        rcases lt_trichotomy c 0 with hc0 | hc0 | hc0
        · have h1 : c ≤ -1 := by omega
          have h2 : (n : ℤ) * c ≤ (n : ℤ) * (-1) :=
            mul_le_mul_of_nonneg_left h1 (by positivity)
          have h3 : (m : ℤ) + l - j ≤ -(n : ℤ) := by
            rw [hc]
            linarith
          omega
        · subst hc0
          rw [mul_zero] at hc
          omega
        · have h1 : (1 : ℤ) ≤ c := by omega
          have h2 : (n : ℤ) * 1 ≤ (n : ℤ) * c :=
            mul_le_mul_of_nonneg_left h1 (by positivity)
          have h3 : (n : ℤ) ≤ (m : ℤ) + l - j := by
            rw [hc]
            linarith
          omega
      omega
    · rintro ⟨hmj, rfl⟩
      have : (m : ℤ) + (j - m : ℕ) - j = 0 := by omega
      rw [this]
      exact dvd_zero _
  rw [Finset.sum_congr rfl fun j hj => Finset.sum_congr rfl fun l hl => by
    rw [if_congr (hcond j hj l hl) rfl rfl]]
  have hrowsum : ∀ j ∈ Finset.range p.length,
      (∑ l ∈ Finset.range p.length,
        signalOf p j * signalOf p l * (if m ≤ j ∧ l = j - m then 1 else 0))
      = (if m ≤ j then signalOf p j * signalOf p (j - m) else 0) := by
    intro j hj
    rw [Finset.mem_range] at hj
    by_cases hmj : m ≤ j
    · rw [if_pos hmj]
      have hsimp : ∀ l, signalOf p j * signalOf p l * (if m ≤ j ∧ l = j - m then 1 else 0)
          = (if l = j - m then signalOf p j * signalOf p l else 0) := by
        intro l
        by_cases hlj : l = j - m
        · rw [if_pos ⟨hmj, hlj⟩, if_pos hlj, mul_one]
        · rw [if_neg (by tauto), if_neg hlj, mul_zero]
      rw [Finset.sum_congr rfl fun l _ => hsimp l]
      rw [Finset.sum_ite_eq' (Finset.range p.length) (j - m)
        (fun l => signalOf p j * signalOf p l)]
      rw [if_pos (Finset.mem_range.mpr (by omega))]
    · rw [if_neg hmj]
      refine Finset.sum_eq_zero fun l _ => ?_
      rw [if_neg (by tauto), mul_zero]
  rw [Finset.sum_congr rfl hrowsum]
  have hsplit : (∑ j ∈ Finset.range p.length,
      (if m ≤ j then signalOf p j * signalOf p (j - m) else 0))
      = ∑ j ∈ Finset.Ico m p.length, signalOf p j * signalOf p (j - m) := by
    rw [Finset.range_eq_Ico,
      ← Finset.sum_Ico_consecutive _ (Nat.zero_le m) (le_of_lt hm)]
    have h1 : (∑ j ∈ Finset.Ico 0 m,
        (if m ≤ j then signalOf p j * signalOf p (j - m) else 0)) = 0 := by
      refine Finset.sum_eq_zero fun j hj => ?_
      rw [Finset.mem_Ico] at hj
      rw [if_neg (by omega)]
    have h2 : (∑ j ∈ Finset.Ico m p.length,
        (if m ≤ j then signalOf p j * signalOf p (j - m) else 0))
        = ∑ j ∈ Finset.Ico m p.length, signalOf p j * signalOf p (j - m) := by
      refine Finset.sum_congr rfl fun j hj => ?_
      rw [Finset.mem_Ico] at hj
      rw [if_pos hj.1]
    rw [h1, h2, zero_add]
  rw [hsplit, Finset.sum_Ico_eq_sum_range]
  rw [bruteAutocorr]
  push_cast
  refine Finset.sum_congr rfl fun i hi => ?_
  rw [Finset.mem_range] at hi
  rw [signalOf, signalOf, Nat.add_sub_cancel_left, Nat.add_comm m i]
  ring

/-- `C8`: the Wiener-Khinchin pipeline of `estimate_fringe_spacing_px` —
zero-pad to the next power of two at least double the profile length,
forward transform, multiply by the conjugate, inverse transform, truncate —
coincides with the brute-force lag correlation at every lag below the
profile length.  (The claim states this for mean-removed profiles; it holds
for every real profile.) -/
theorem claim_C8_wiener_khinchin (p : List ℝ) (lag : ℕ) (hlag : lag < p.length) :
    fftAutocorr p lag = ((bruteAutocorr p lag : ℝ) : ℂ) := by
  have h2L : 2 * p.length ≤ padLen p.length := Nat.le_pow_clog (by norm_num) _
  have hn : 0 < padLen p.length := by
    have : 0 < p.length := by omega
    omega
  rw [fftAutocorr, idft_dft_conj (padLen p.length) hn (signalOf p)
    (fun j => Complex.conj_ofReal (p.getD j 0)) lag]
  exact double_sum_collapse p lag hlag _ h2L

/-- Witness for `claim_C8_wiener_khinchin` on a two-sample profile. -/
theorem claim_C8_wiener_khinchin_witness :
    fftAutocorr [(1 : ℝ), 2] 1 = ((bruteAutocorr [(1 : ℝ), 2] 1 : ℝ) : ℂ) :=
  claim_C8_wiener_khinchin [(1 : ℝ), 2] 1 (by simp)

end

end DiffractionCapture
